import Mathlib

set_option linter.unusedSectionVars false

/-!
Shallow embedding of `prioritydict.py` (afcarl/prioritydict).

The container `PriorityDict` keeps two synchronized structures:
`self._dict` — a Python dict mapping key → value — and `self._list` — a
`SortedList` of `(value, key)` pairs kept in ascending lexicographic order.
We model the dict as an insertion-ordered association list with at most one
binding per key (CPython 3.7+ semantics: rebinding keeps the slot's position,
fresh keys append, deletion keeps the order of the survivors), and the
SortedList as a plain list kept sorted.  Machine issues (hashing) are
irrelevant to the claims; values use an arbitrary linearly ordered type with
exact arithmetic where the merges need it, matching Python's arbitrary
precision ints.

Operations that can raise are modelled as `Except (Err × PriorityDict) ...`:
the error constructor carries the container state at the instant the
exception propagates, so that partial mutation (or its absence) is
observable in the model exactly as it is in Python.
-/

/-- Error kinds surfaced by the source: Python `KeyError`, `ValueError`,
`IndexError` and `AttributeError`. -/
inductive Err where
  | keyError
  | valueError
  | indexError
  | attributeError
deriving DecidableEq, Repr

/-- The container state of `PriorityDict.__init__`: `self._dict = dict()` and
`self._list = SortedList()` (the `iloc` wrapper holds no state of its own). -/
structure PriorityDict (K V : Type) where
  _dict : List (K × V)
  _list : List (V × K)
deriving DecidableEq

variable {K V : Type} [LinearOrder K] [LinearOrder V]

/-- Python `d[key]` lookup on the dict (`key in d` is `(dget? d k).isSome`). -/
def dget? (d : List (K × V)) (k : K) : Option V :=
  (d.find? (fun kv => decide (kv.1 = k))).map Prod.snd

/-- Python `d[key] = value` on a dict: rebind in place when the key is
present, append a fresh binding otherwise. -/
def dinsert : List (K × V) → K → V → List (K × V)
  | [], k, v => [(k, v)]
  | kv :: rest, k, v => if kv.1 = k then (k, v) :: rest else kv :: dinsert rest k v

/-- Python `del d[key]`: drop the binding of `k`.  The source only deletes
keys it has just looked up, so the missing-key `KeyError` is unreachable at
these call sites. -/
def derase (d : List (K × V)) (k : K) : List (K × V) :=
  d.filter (fun kv => decide (kv.1 ≠ k))

/-- A Python dict binds each key at most once. -/
def NodupKeys (d : List (K × V)) : Prop := (d.map Prod.fst).Nodup

instance (d : List (K × V)) : Decidable (NodupKeys d) := by
  unfold NodupKeys; infer_instance

/-- Python's lexicographic comparison of the `(value, key)` tuples stored in
the SortedList. -/
def pLe (a b : V × K) : Prop := a.1 < b.1 ∨ (a.1 = b.1 ∧ a.2 ≤ b.2)

instance : DecidableRel (@pLe K V _ _) := fun a b => by
  unfold pLe; infer_instance

instance : IsTotal (V × K) pLe := ⟨by
  intro a b
  rcases lt_trichotomy a.1 b.1 with h | h | h
  · exact Or.inl (Or.inl h)
  · rcases le_total a.2 b.2 with h2 | h2
    · exact Or.inl (Or.inr ⟨h, h2⟩)
    · exact Or.inr (Or.inr ⟨h.symm, h2⟩)
  · exact Or.inr (Or.inl h)⟩

instance : IsTrans (V × K) pLe := ⟨by
  intro a b c hab hbc
  rcases hab with h1 | ⟨e1, l1⟩
  · rcases hbc with h2 | ⟨e2, l2⟩
    · exact Or.inl (h1.trans h2)
    · exact Or.inl (lt_of_lt_of_le h1 (le_of_eq e2))
  · rcases hbc with h2 | ⟨e2, l2⟩
    · exact Or.inl (lt_of_le_of_lt (le_of_eq e1) h2)
    · exact Or.inr ⟨e1.trans e2, l1.trans l2⟩⟩

theorem pLe_fst_le {a b : V × K} (h : pLe a b) : a.1 ≤ b.1 := by
  rcases h with h | ⟨e, _⟩
  · exact le_of_lt h
  · exact le_of_eq e

instance : IsAntisymm (V × K) pLe := ⟨by
  intro a b hab hba
  have e : a.1 = b.1 := le_antisymm (pLe_fst_le hab) (pLe_fst_le hba)
  rcases hab with h1 | ⟨_, l1⟩
  · exact absurd h1 (by rw [e]; exact lt_irrefl _)
  · rcases hba with h2 | ⟨_, l2⟩
    · exact absurd h2 (by rw [e]; exact lt_irrefl _)
    · exact Prod.ext e (le_antisymm l1 l2)⟩

/-- `SortedList.add(x)`: insert keeping the sort order. -/
def sladd (x : V × K) (l : List (V × K)) : List (V × K) := List.orderedInsert pLe x l

/-- `SortedList.remove(x)`: delete one occurrence of `x`.  Every call site
removes a pair that invariant I2 guarantees present (Python would raise
`ValueError` for an absent pair, which is unreachable there). -/
def slremove (x : V × K) (l : List (V × K)) : List (V × K) :=
  @List.erase _ instBEqOfDecidableEq l x

/-- Swap a dict item `(key, value)` into its SortedList form `(value, key)`. -/
def swapP (kv : K × V) : V × K := (kv.2, kv.1)

/-- A real pair `(w, k)` lies strictly below the one-element probe `(v,)` of
`bisect_left` iff `w < v`: Python compares the common head first, and a
longer tuple with an equal head is the larger one. -/
def ltProbe1 (e : V × K) (v : V) : Bool := decide (e.1 < v)

/-- A real pair `(w, k)` is at most the probe `(v, _Biggest)` of
`bisect_right` iff `w ≤ v`: the sentinel `_Biggest` compares strictly
greater than every real key. -/
def leProbeBig (e : V × K) (v : V) : Bool := decide (e.1 ≤ v)

/-- `SortedList.bisect_left((v,))`: the insertion point of the probe, i.e.
the position of the first element not below it. -/
def slBisectLeft (l : List (V × K)) (v : V) : Nat :=
  l.findIdx (fun e => !(ltProbe1 e v))

/-- `SortedList.bisect_right((v, _Biggest))`: the insertion point past every
element at most the probe. -/
def slBisectRight (l : List (V × K)) (v : V) : Nat :=
  l.findIdx (fun e => !(leProbeBig e v))

/-- `PriorityDict.bisect_left(value)` (line 360): bisect the Order Index with
the one-element probe `(value,)`. -/
def PriorityDict.bisect_left (pd : PriorityDict K V) (v : V) : Nat :=
  slBisectLeft pd._list v

/-- `PriorityDict.bisect_right(value)` (line 373): bisect with the synthetic
probe `(value, _Biggest)`. -/
def PriorityDict.bisect_right (pd : PriorityDict K V) (v : V) : Nat :=
  slBisectRight pd._list v

/-- `PriorityDict.__setitem__` (line 203): when the key is present, first
remove its old `(value, key)` pair from the list, then add the new pair and
rebind the dict slot. -/
def PriorityDict.setitem (pd : PriorityDict K V) (k : K) (v : V) : PriorityDict K V :=
  match dget? pd._dict k with
  | some old => ⟨dinsert pd._dict k v, sladd (v, k) (slremove (old, k) pd._list)⟩
  | none => ⟨dinsert pd._dict k v, sladd (v, k) pd._list⟩

/-- `PriorityDict.__delitem__` (line 169): `value = self._dict[key]` raises
`KeyError` before any mutation when the key is absent; otherwise both indices
drop the entry. -/
def PriorityDict.delitem (pd : PriorityDict K V) (k : K) :
    Except (Err × PriorityDict K V) (PriorityDict K V) :=
  match dget? pd._dict k with
  | none => .error (.keyError, pd)
  | some v => .ok ⟨derase pd._dict k, slremove (v, k) pd._list⟩

/-- `PriorityDict.pop` (line 239): remove and return the value when present;
otherwise return the default, or raise `KeyError` when none was given. -/
def PriorityDict.popKey (pd : PriorityDict K V) (k : K) (dflt : Option V) :
    Except (Err × PriorityDict K V) (V × PriorityDict K V) :=
  match dget? pd._dict k with
  | some v => .ok (v, ⟨derase pd._dict k, slremove (v, k) pd._list⟩)
  | none =>
    match dflt with
    | some dv => .ok (dv, pd)
    | none => .error (.keyError, pd)

/-- Python index normalisation for a sequence of length `n`: negative indices
count from the end; anything outside `[-n, n)` is invalid. -/
def normIdx (n : Nat) (i : Int) : Option Nat :=
  let j := if i < 0 then i + n else i
  if 0 ≤ j ∧ j < (n : Int) then some j.toNat else none

/-- `PriorityDict.popitem` (line 255): `self._list.pop(index)` raises
`IndexError` before any mutation when the index is invalid; otherwise the
popped pair leaves both indices. -/
def PriorityDict.popitem (pd : PriorityDict K V) (i : Int) :
    Except (Err × PriorityDict K V) ((K × V) × PriorityDict K V) :=
  match normIdx pd._list.length i with
  | none => .error (.indexError, pd)
  | some pos =>
    match pd._list[pos]? with
    | some (v, k) => .ok ((k, v), ⟨derase pd._dict k, pd._list.eraseIdx pos⟩)
    | none => .error (.indexError, pd)

/-- `_IlocWrapper.__delitem__` with an integer index (line 106): read the key
at the position (raising `IndexError` first if invalid), then delete the
entry from both indices. -/
def PriorityDict.delAt (pd : PriorityDict K V) (i : Int) :
    Except (Err × PriorityDict K V) (PriorityDict K V) :=
  match normIdx pd._list.length i with
  | none => .error (.indexError, pd)
  | some pos =>
    match pd._list[pos]? with
    | some (_v, k) => .ok ⟨derase pd._dict k, pd._list.eraseIdx pos⟩
    | none => .error (.indexError, pd)

/-- Python slice endpoint normalisation (step 1): negative endpoints count
from the end, then both are clamped into `[0, n]`; slices never raise. -/
def clampIdx (n : Nat) (i : Int) : Nat :=
  if i < 0 then (i + n).toNat else min i.toNat n

/-- `_IlocWrapper.__delitem__` with a slice `a:b` (line 102): delete the
chosen keys from the dict and the contiguous range from the list. -/
def PriorityDict.delRange (pd : PriorityDict K V) (a b : Int) : PriorityDict K V :=
  let n := pd._list.length
  let lo := clampIdx n a
  let hi := max lo (clampIdx n b)
  let seg := (pd._list.drop lo).take (hi - lo)
  ⟨seg.foldl (fun d e => derase d e.2) pd._dict, pd._list.take lo ++ pd._list.drop hi⟩

/-- Python `dict(pairs)`: fold the pairs into a fresh dict, later bindings
winning on collision. -/
def dictOfList (items : List (K × V)) : List (K × V) :=
  items.foldl (fun d kv => dinsert d kv.1 kv.2) []

/-- The incremental loop of `PriorityDict.update` (line 346): for each pair,
`old_value = _dict[key]` raises `KeyError` when the key is absent — after
the earlier pairs of the loop were already applied — otherwise the entry is
moved in both indices. -/
def PriorityDict.updateInc (pd : PriorityDict K V) :
    List (K × V) → Except (Err × PriorityDict K V) (PriorityDict K V)
  | [] => .ok pd
  | (k, v) :: rest =>
    match dget? pd._dict k with
    | none => .error (.keyError, pd)
    | some old =>
      PriorityDict.updateInc ⟨dinsert pd._dict k v, sladd (v, k) (slremove (old, k) pd._list)⟩ rest

/-- `PriorityDict.update` (line 329): convert the argument with `dict(...)`,
then either rebuild (`10·m > n`: apply all pairs to the dict, clear the list
and re-sort every item) or run the incremental loop. -/
def PriorityDict.update (pd : PriorityDict K V) (args : List (K × V)) :
    Except (Err × PriorityDict K V) (PriorityDict K V) :=
  let items := dictOfList args
  if 10 * items.length > pd._dict.length then
    let d := items.foldl (fun d kv => dinsert d kv.1 kv.2) pd._dict
    .ok ⟨d, List.insertionSort pLe (d.map swapP)⟩
  else
    pd.updateInc items

/-- `PriorityDict.clean` (line 154, the spec's `prune`): compute
`pos = bisect_right(value)`, delete the keys of the prefix `_list[:pos]`
from the dict, then delete the prefix from the list. -/
def PriorityDict.clean (pd : PriorityDict K V) (t : V) : PriorityDict K V :=
  let pos := slBisectRight pd._list t
  let seg := pd._list.take pos
  ⟨seg.foldl (fun d e => derase d e.2) pd._dict, pd._list.drop pos⟩

section Merges

variable [Add V] [Sub V]

/-- One dict step of the rebuild path of `__iadd__`/`__add__`:
`_dict[key] += value` when present, `_dict[key] = value` otherwise. -/
def addStep (d : List (K × V)) (kv : K × V) : List (K × V) :=
  match dget? d kv.1 with
  | some old => dinsert d kv.1 (old + kv.2)
  | none => dinsert d kv.1 kv.2

/-- One dict step of the rebuild path of `__isub__`/`__sub__`:
`_dict[key] -= value` when present, keys only in the operand are ignored. -/
def subStep (d : List (K × V)) (kv : K × V) : List (K × V) :=
  match dget? d kv.1 with
  | some old => dinsert d kv.1 (old - kv.2)
  | none => d

/-- One dict step of the rebuild path of `__ior__`/`__or__`:
`_dict[key] = max(_dict[key], value)` when present, insert otherwise. -/
def orStep (d : List (K × V)) (kv : K × V) : List (K × V) :=
  match dget? d kv.1 with
  | some old => dinsert d kv.1 (max old kv.2)
  | none => dinsert d kv.1 kv.2

/-- One dict step of the rebuild path of `__iand__`/`__and__`:
`_dict[key] = min(_dict[key], value)` when present, keys only in the operand
are dropped. -/
def andStep (d : List (K × V)) (kv : K × V) : List (K × V) :=
  match dget? d kv.1 with
  | some old => dinsert d kv.1 (min old kv.2)
  | none => d

/-- One step of the incremental path shared by the four in-place merges:
when the key is present, remove its old pair from the list, combine the
values with `f`, rebind and re-insert; when absent, insert the operand's
pair as-is if `keepAbsent` (Sum, Max) or leave the container untouched
(Difference, Min). -/
def incStep (f : V → V → V) (keepAbsent : Bool) (s : PriorityDict K V) (kv : K × V) :
    PriorityDict K V :=
  match dget? s._dict kv.1 with
  | some old =>
    ⟨dinsert s._dict kv.1 (f old kv.2),
      sladd (f old kv.2, kv.1) (slremove (old, kv.1) s._list)⟩
  | none =>
    if keepAbsent then ⟨dinsert s._dict kv.1 kv.2, sladd (kv.2, kv.1) s._list⟩ else s

/-- `PriorityDict.__iadd__` (line 381).  Empty self: `_dict.update(that)` and
`_list.update(...)` (the list, empty under the invariant, receives every dict
item).  `3·m > n`: clear the list, apply all dict steps, re-sort once.
Otherwise: the incremental loop. -/
def PriorityDict.iadd (pd : PriorityDict K V) (that : List (K × V)) : PriorityDict K V :=
  if pd._dict.length = 0 then
    let d := that.foldl (fun d kv => dinsert d kv.1 kv.2) pd._dict
    ⟨d, List.insertionSort pLe (pd._list ++ d.map swapP)⟩
  else if that.length * 3 > pd._dict.length then
    let d := that.foldl addStep pd._dict
    ⟨d, List.insertionSort pLe (d.map swapP)⟩
  else
    that.foldl (incStep (fun old v => old + v) true) pd

/-- `PriorityDict.__isub__` (line 405).  Empty self: `_dict.clear()` and
`_list.clear()` — the operand is NOT loaded.  Otherwise the same two-path
scheme with subtraction, ignoring keys absent from self. -/
def PriorityDict.isub (pd : PriorityDict K V) (that : List (K × V)) : PriorityDict K V :=
  if pd._dict.length = 0 then ⟨[], []⟩
  else if that.length * 3 > pd._dict.length then
    let d := that.foldl subStep pd._dict
    ⟨d, List.insertionSort pLe (d.map swapP)⟩
  else
    that.foldl (incStep (fun old v => old - v) false) pd

/-- `PriorityDict.__ior__` (line 427): elementwise max, union semantics;
empty self bulk-loads the operand exactly as `__iadd__` does. -/
def PriorityDict.ior (pd : PriorityDict K V) (that : List (K × V)) : PriorityDict K V :=
  if pd._dict.length = 0 then
    let d := that.foldl (fun d kv => dinsert d kv.1 kv.2) pd._dict
    ⟨d, List.insertionSort pLe (pd._list ++ d.map swapP)⟩
  else if that.length * 3 > pd._dict.length then
    let d := that.foldl orStep pd._dict
    ⟨d, List.insertionSort pLe (d.map swapP)⟩
  else
    that.foldl (incStep (fun old v => max old v) true) pd

/-- `PriorityDict.__iand__` (line 451): elementwise min, keys absent from
self are dropped; empty self clears both indices exactly as `__isub__` does. -/
def PriorityDict.iand (pd : PriorityDict K V) (that : List (K × V)) : PriorityDict K V :=
  if pd._dict.length = 0 then ⟨[], []⟩
  else if that.length * 3 > pd._dict.length then
    let d := that.foldl andStep pd._dict
    ⟨d, List.insertionSort pLe (d.map swapP)⟩
  else
    that.foldl (incStep (fun old v => min old v) false) pd

/-- `PriorityDict.__add__` (line 473), copy-producing Sum: build the result
dict from a copy of self's dict plus all add steps, then sort the full item
list once. -/
def PriorityDict.addCopy (pd : PriorityDict K V) (that : List (K × V)) : PriorityDict K V :=
  let d := that.foldl addStep (dictOfList pd._dict)
  ⟨d, List.insertionSort pLe (d.map swapP)⟩

/-- `PriorityDict.__sub__` (line 486), copy-producing Difference. -/
def PriorityDict.subCopy (pd : PriorityDict K V) (that : List (K × V)) : PriorityDict K V :=
  let d := that.foldl subStep (dictOfList pd._dict)
  ⟨d, List.insertionSort pLe (d.map swapP)⟩

/-- `PriorityDict.__or__` (line 497), copy-producing Max. -/
def PriorityDict.orCopy (pd : PriorityDict K V) (that : List (K × V)) : PriorityDict K V :=
  let d := that.foldl orStep (dictOfList pd._dict)
  ⟨d, List.insertionSort pLe (d.map swapP)⟩

/-- `PriorityDict.__and__` (line 510), copy-producing Min. -/
def PriorityDict.andCopy (pd : PriorityDict K V) (that : List (K × V)) : PriorityDict K V :=
  let d := that.foldl andStep (dictOfList pd._dict)
  ⟨d, List.insertionSort pLe (d.map swapP)⟩

end Merges

/-- The public mutators quantified over by the invariant claim: set, delete,
pop, popitem, update, the four in-place and four copy-producing merges,
prune and positional delete (single index and slice).  A copy-producing
merge yields a fresh container, which becomes the state the sequence
continues on. -/
inductive Op (K V : Type) where
  | set (k : K) (v : V)
  | del (k : K)
  | popKey (k : K) (dflt : Option V)
  | popitem (i : Int)
  | upd (items : List (K × V))
  | iaddOp (that : List (K × V))
  | isubOp (that : List (K × V))
  | iorOp (that : List (K × V))
  | iandOp (that : List (K × V))
  | addOp (that : List (K × V))
  | subOp (that : List (K × V))
  | orOp (that : List (K × V))
  | andOp (that : List (K × V))
  | prune (t : V)
  | delAtOp (i : Int)
  | delRangeOp (a b : Int)

/-- The container state after a fallible call, whether it returned or raised:
the error constructor carries the state at raise time. -/
def resState : Except (Err × PriorityDict K V) (PriorityDict K V) → PriorityDict K V
  | .ok s => s
  | .error (_, s) => s

/-- State after a fallible call that also returns a value. -/
def resStateV {A : Type} : Except (Err × PriorityDict K V) (A × PriorityDict K V) →
    PriorityDict K V
  | .ok (_, s) => s
  | .error (_, s) => s

section ApplyOp

variable [Add V] [Sub V]

/-- Apply one public operation and return the container state it leaves
behind (on success or on a surfaced error alike). -/
def applyOp (pd : PriorityDict K V) : Op K V → PriorityDict K V
  | .set k v => pd.setitem k v
  | .del k => resState (pd.delitem k)
  | .popKey k dflt => resStateV (pd.popKey k dflt)
  | .popitem i => resStateV (pd.popitem i)
  | .upd items => resState (pd.update items)
  | .iaddOp that => pd.iadd that
  | .isubOp that => pd.isub that
  | .iorOp that => pd.ior that
  | .iandOp that => pd.iand that
  | .addOp that => pd.addCopy that
  | .subOp that => pd.subCopy that
  | .orOp that => pd.orCopy that
  | .andOp that => pd.andCopy that
  | .prune t => pd.clean t
  | .delAtOp i => resState (pd.delAt i)
  | .delRangeOp a b => pd.delRange a b

/-- Run a whole sequence of public operations. -/
def runOps (pd : PriorityDict K V) (ops : List (Op K V)) : PriorityDict K V :=
  ops.foldl applyOp pd

end ApplyOp

/-- The container's structural invariant: the dict binds each key once, the
list is (as a multiset) exactly the swapped dict, and the list is sorted. -/
structure PriorityDict.Inv (pd : PriorityDict K V) : Prop where
  nodup : NodupKeys pd._dict
  corr : pd._list.Perm (pd._dict.map swapP)
  sorted : pd._list.Sorted pLe

/-- Multiplicity of a pair in the Order Index. -/
def slcount (x : V × K) (l : List (V × K)) : Nat :=
  @List.count _ instBEqOfDecidableEq x l

/-- Invariants I1 (cardinality), I2 (one-to-one correspondence, stated both
as a membership equivalence and as an exact multiplicity) and I3 (order),
as the spec states them. -/
def StateOK (pd : PriorityDict K V) : Prop :=
  pd._dict.length = pd._list.length
  ∧ (∀ k v, (k, v) ∈ pd._dict ↔ (v, k) ∈ pd._list)
  ∧ (∀ k v, (k, v) ∈ pd._dict → slcount (v, k) pd._list = 1)
  ∧ pd._list.Sorted pLe

/-- Whether a fallible call raised. -/
def isErr {A : Type} : Except (Err × PriorityDict K V) A → Bool
  | .error _ => true
  | .ok _ => false

/-- `ValuesView.__init__` (line 766) assigns only `self._list` (a reference
to the parent's SortedList) and `self._view` (the dict's values); crucially
it never assigns `self._dict`. -/
structure ValuesView (K V : Type) where
  _list : List (V × K)
  _view : List V

/-- Build the view from a container, as `PriorityDict.viewvalues` does. -/
def ValuesView.ofPD (pd : PriorityDict K V) : ValuesView K V :=
  ⟨pd._list, pd._dict.map Prod.snd⟩

/-- `ValuesView.index` (line 812): computes
`pos = self._list.bisect_left((value,))`, then evaluates
`pos == len(self._dict)` — but `ValuesView` has no attribute `_dict`, so the
attribute lookup raises `AttributeError` unconditionally, before any other
outcome can be reached. -/
def ValuesView.index (vv : ValuesView K V) (value : V) : Except Err Nat :=
  let _pos := slBisectLeft vv._list value
  .error .attributeError

/-- `ValuesView.count` (line 823): `bisect_right((value, _Biggest)) -
bisect_left((value,))`. -/
def ValuesView.count (vv : ValuesView K V) (value : V) : Nat :=
  slBisectRight vv._list value - slBisectLeft vv._list value

/-- Python `dict(iterable)` applied to an iterable of bare strings — the
construction-from-keys path `__init__` → `update(*args)` → `dict(*args)`:
each element must be a sequence of exactly two items, so a string of any
other length raises `ValueError`, and a two-character string "xy" yields the
binding "x" ↦ "y" rather than any tally. -/
def pyDictOfStrings (keys : List String) : Except Err (List (String × String)) :=
  keys.foldlM (fun d s =>
    match s.data with
    | [c1, c2] => .ok (dinsert d (String.mk [c1]) (String.mk [c2]))
    | _ => .error .valueError) []

/-- `PriorityDict.__init__` from a sequence of bare keys (line 147 runs
`self.update(*args, **kwargs)` on the fresh empty container): `update` first
evaluates `dict(iterable)`, which is where construction from bare keys
fails. -/
def initFromKeys (keys : List String) : Except Err (PriorityDict String String) :=
  match pyDictOfStrings keys with
  | .error e => .error e
  | .ok items =>
    match PriorityDict.update ⟨[], []⟩ items with
    | .error e => .error e.1
    | .ok pd => .ok pd

/-- Object heap for the aliasing claim: cells for Python dict objects and
SortedList objects; a `PriorityDict` instance holds references into it. -/
structure Heap (K V : Type) where
  dicts : List (List (K × V))
  lists : List (List (V × K))

/-- A `PriorityDict` object as Python sees it: references to the objects
bound to its `_dict`, `_list` and `iloc` attributes. -/
structure PDObj where
  dictRef : Nat
  listRef : Nat
  ilocRef : Nat
deriving DecidableEq

/-- `PriorityDict.copy` (line 211): `that = PriorityDict()` allocates fresh
empty dict/list cells (immediately abandoned), then `that._dict`,
`that._list` and `that.iloc` are pointed at the very same objects as
`self`'s. -/
def copyPD (h : Heap K V) (o : PDObj) : Heap K V × PDObj :=
  (⟨h.dicts ++ [[]], h.lists ++ [[]]⟩, ⟨o.dictRef, o.listRef, o.ilocRef⟩)

/-- `__setitem__` performed through an object reference: read the referenced
cells, run the functional update, write the cells back in place. -/
def setitemH (h : Heap K V) (o : PDObj) (k : K) (v : V) : Heap K V :=
  let pd := PriorityDict.mk (h.dicts.getD o.dictRef []) (h.lists.getD o.listRef [])
  let pd2 := pd.setitem k v
  ⟨h.dicts.set o.dictRef pd2._dict, h.lists.set o.listRef pd2._list⟩

/-- `__getitem__` performed through an object reference. -/
def getitemH (h : Heap K V) (o : PDObj) (k : K) : Option V :=
  dget? (h.dicts.getD o.dictRef []) k

/-- The empty container `PriorityDict()` over chosen key/value types. -/
def emptyPD (K V : Type) : PriorityDict K V := ⟨[], []⟩

/-- A twenty-entry container: keys 0..19, every value 0. -/
def pd20 : PriorityDict Nat Int :=
  ⟨(List.range 20).map (fun i => (i, 0)), (List.range 20).map (fun i => (0, i))⟩

/-- A ten-entry container: keys 0..9, every value 0. -/
def pd10 : PriorityDict Nat Int :=
  ⟨(List.range 10).map (fun i => (i, 0)), (List.range 10).map (fun i => (0, i))⟩

/-- The `update` argument of the atomicity counterexample: key 0 exists in
`pd20` and is processed first, key 100 is absent and raises. -/
def c4items : List (Nat × Int) := [(0, 7), (100, 1)]

/-- The container {1 ↦ 2, 2 ↦ 3} (the spec scenario's {a: 2, b: 3}). -/
def pdAB : PriorityDict Nat Int := ⟨[(1, 2), (2, 3)], [(2, 1), (3, 2)]⟩

/-- A small well-formed container for sequence witnesses. -/
def pdW : PriorityDict Nat Int := ⟨[(1, 5), (2, 3)], [(3, 2), (5, 1)]⟩

/-- A sample operation sequence exercising several mutators. -/
def opsW : List (Op Nat Int) :=
  [Op.set 3 4, Op.iaddOp [(1, 2), (7, 1)], Op.prune 2, Op.del 3, Op.popitem (-1)]

/-- Sum/Difference witness operands: A = {1 ↦ 1} and B = {1 ↦ 5, 2 ↦ 2}. -/
def pdA1 : PriorityDict Nat Int := ⟨[(1, 1)], [(1, 1)]⟩

def listB : List (Nat × Int) := [(1, 5), (2, 2)]

/-- A one-cell heap whose single container is {1 with value 2}. -/
def hW : Heap Nat Int := ⟨[[(1, 2)]], [[(2, 1)]]⟩

/-- An object whose attributes reference the heap's cell 0. -/
def oW : PDObj := ⟨0, 0, 0⟩

theorem dget?_eq_none_iff {d : List (K × V)} {k : K} :
    dget? d k = none ↔ ∀ kv ∈ d, kv.1 ≠ k := by
  unfold dget?
  rw [Option.map_eq_none', List.find?_eq_none]
  simp

theorem dget?_eq_none_iff_keys {d : List (K × V)} {k : K} :
    dget? d k = none ↔ k ∉ d.map Prod.fst := by
  rw [dget?_eq_none_iff]
  simp only [List.mem_map]
  constructor
  · rintro h ⟨kv, hkv, rfl⟩
    exact h kv hkv rfl
  · intro h kv hkv he
    exact h ⟨kv, hkv, he⟩

theorem dget?_cons_self {d : List (K × V)} {k : K} {v : V} :
    dget? ((k, v) :: d) k = some v := by
  unfold dget?
  simp [List.find?]

theorem dget?_cons_ne {d : List (K × V)} {k k0 : K} {v0 : V} (h : k0 ≠ k) :
    dget? ((k0, v0) :: d) k = dget? d k := by
  unfold dget?
  simp [List.find?, h]

theorem dget?_some_mem {d : List (K × V)} {k : K} {v : V} (h : dget? d k = some v) :
    (k, v) ∈ d := by
  unfold dget? at h
  rw [Option.map_eq_some'] at h
  obtain ⟨kv, hfind, hv⟩ := h
  have hmem := List.mem_of_find?_eq_some hfind
  have hp := List.find?_some hfind
  simp only [decide_eq_true_eq] at hp
  have : kv = (k, v) := by
    cases kv
    simp only [Prod.mk.injEq]
    exact ⟨hp, hv⟩
  rw [← this]
  exact hmem

theorem dget?_mem {d : List (K × V)} {k : K} {v : V}
    (hd : NodupKeys d) (h : (k, v) ∈ d) : dget? d k = some v := by
  induction d with
  | nil => simp at h
  | cons kv rest ih =>
    obtain ⟨k0, v0⟩ := kv
    unfold NodupKeys at hd
    simp only [List.map_cons, List.nodup_cons] at hd
    rcases List.mem_cons.mp h with he | ht
    · rw [Prod.mk.injEq] at he
      rw [he.1, he.2] at *
      exact dget?_cons_self
    · have hne : k0 ≠ k := by
        intro he0
        apply hd.1
        rw [he0]
        exact List.mem_map.mpr ⟨(k, v), ht, rfl⟩
      rw [dget?_cons_ne hne]
      exact ih hd.2 ht

theorem keys_dinsert (d : List (K × V)) (k : K) (v : V) :
    (dinsert d k v).map Prod.fst =
      if k ∈ d.map Prod.fst then d.map Prod.fst else d.map Prod.fst ++ [k] := by
  induction d with
  | nil => simp [dinsert]
  | cons kv rest ih =>
    by_cases he : kv.1 = k
    · simp [dinsert, he]
    · have : ¬(k ∈ [kv.1]) := by simp [Ne.symm he]
      simp only [dinsert, if_neg he, List.map_cons, ih, List.mem_cons]
      by_cases hm : k ∈ rest.map Prod.fst
      · simp [hm, Ne.symm he]
      · simp [hm, Ne.symm he]

theorem nodupKeys_dinsert {d : List (K × V)} (hd : NodupKeys d) (k : K) (v : V) :
    NodupKeys (dinsert d k v) := by
  unfold NodupKeys at *
  rw [keys_dinsert]
  by_cases hm : k ∈ d.map Prod.fst
  · simpa [hm] using hd
  · simp only [hm, if_false]
    rw [List.nodup_append]
    exact ⟨hd, List.nodup_singleton k, by simpa using hm⟩

theorem nodupKeys_sublist {d' d : List (K × V)} (hs : List.Sublist d' d)
    (hd : NodupKeys d) : NodupKeys d' :=
  List.Nodup.sublist (hs.map Prod.fst) hd

theorem nodupKeys_derase {d : List (K × V)} (hd : NodupKeys d) (k : K) :
    NodupKeys (derase d k) :=
  nodupKeys_sublist (List.filter_sublist d) hd

theorem derase_eq_of_none {d : List (K × V)} {k : K} (h : dget? d k = none) :
    derase d k = d := by
  rw [dget?_eq_none_iff] at h
  unfold derase
  rw [List.filter_eq_self]
  intro kv hkv
  simpa using h kv hkv

theorem dinsert_of_none {d : List (K × V)} {k : K} (v : V) (h : dget? d k = none) :
    dinsert d k v = d ++ [(k, v)] := by
  rw [dget?_eq_none_iff] at h
  induction d with
  | nil => simp [dinsert]
  | cons kv rest ih =>
    have hne : kv.1 ≠ k := h kv (List.mem_cons_self _ _)
    simp only [dinsert, if_neg hne, List.cons_append, List.cons.injEq, true_and]
    exact ih (fun kv' h' => h kv' (List.mem_cons_of_mem _ h'))

theorem derase_cons_self {rest : List (K × V)} {k : K} {v0 : V}
    (hk : k ∉ rest.map Prod.fst) : derase ((k, v0) :: rest) k = rest := by
  unfold derase
  simp only [List.filter_cons, decide_eq_true_eq]
  rw [if_neg (by simp)]
  rw [List.filter_eq_self]
  intro kv hkv
  simp only [ne_eq, decide_eq_true_eq]
  intro he3
  exact hk (by rw [← he3]; exact List.mem_map.mpr ⟨kv, hkv, rfl⟩)

theorem derase_cons_ne {rest : List (K × V)} {k k0 : K} {v0 : V} (hne : k0 ≠ k) :
    derase ((k0, v0) :: rest) k = (k0, v0) :: derase rest k := by
  unfold derase
  simp [List.filter_cons, hne]

theorem perm_cons_derase {d : List (K × V)} {k : K} {v : V}
    (hd : NodupKeys d) (h : (k, v) ∈ d) : d.Perm ((k, v) :: derase d k) := by
  induction d with
  | nil => simp at h
  | cons kv rest ih =>
    obtain ⟨k0, v0⟩ := kv
    unfold NodupKeys at hd
    simp only [List.map_cons, List.nodup_cons] at hd
    rcases List.mem_cons.mp h with he | ht
    · obtain ⟨he1, he2⟩ := Prod.mk.injEq .. ▸ he
      subst he1
      subst he2
      rw [derase_cons_self hd.1]
    · have hne : k0 ≠ k := by
        intro he0
        apply hd.1
        rw [he0]
        exact List.mem_map.mpr ⟨(k, v), ht, rfl⟩
      rw [derase_cons_ne hne]
      exact ((ih hd.2 ht).cons (k0, v0)).trans
        (List.Perm.swap (k, v) (k0, v0) (derase rest k))

theorem dinsert_perm {d : List (K × V)} {k : K} {old : V} (v : V)
    (hd : NodupKeys d) (h : (k, old) ∈ d) :
    (dinsert d k v).Perm ((k, v) :: derase d k) := by
  induction d with
  | nil => simp at h
  | cons kv rest ih =>
    obtain ⟨k0, v0⟩ := kv
    unfold NodupKeys at hd
    simp only [List.map_cons, List.nodup_cons] at hd
    by_cases he : k0 = k
    · subst he
      have h1 : dinsert ((k0, v0) :: rest) k0 v = (k0, v) :: rest := by
        simp [dinsert]
      rw [h1, derase_cons_self hd.1]
    · have ht : (k, old) ∈ rest := by
        rcases List.mem_cons.mp h with he2 | ht
        · obtain ⟨he21, _⟩ := Prod.mk.injEq .. ▸ he2
          exact absurd he21.symm he
        · exact ht
      have h1 : dinsert ((k0, v0) :: rest) k v = (k0, v0) :: dinsert rest k v := by
        simp [dinsert, he]
      rw [h1, derase_cons_ne he]
      exact ((ih hd.2 ht).cons (k0, v0)).trans
        (List.Perm.swap (k, v) (k0, v0) (derase rest k))

theorem swapP_mem {d : List (K × V)} {k : K} {v : V} :
    (v, k) ∈ d.map swapP ↔ (k, v) ∈ d := by
  rw [List.mem_map]
  constructor
  · rintro ⟨⟨k0, v0⟩, hm, he⟩
    simp only [swapP, Prod.mk.injEq] at he
    rw [← he.1, ← he.2]
    exact hm
  · intro hm
    exact ⟨(k, v), hm, rfl⟩

theorem nodup_map_swapP {d : List (K × V)} (hd : NodupKeys d) : (d.map swapP).Nodup := by
  have : (d.map swapP).map Prod.snd = d.map Prod.fst := by
    rw [List.map_map]
    rfl
  apply List.Nodup.of_map Prod.snd
  rw [this]
  exact hd

theorem sorted_sladd {l : List (V × K)} (x : V × K) (h : l.Sorted pLe) :
    (sladd x l).Sorted pLe :=
  List.Sorted.orderedInsert x l h

theorem perm_sladd (x : V × K) (l : List (V × K)) : (sladd x l).Perm (x :: l) :=
  List.perm_orderedInsert pLe x l

theorem slremove_sublist (x : V × K) (l : List (V × K)) : (slremove x l).Sublist l :=
  @List.erase_sublist _ instBEqOfDecidableEq x l

theorem slremove_perm (x : V × K) {l1 l2 : List (V × K)} (h : l1.Perm l2) :
    (slremove x l1).Perm (slremove x l2) :=
  List.Perm.erase x h

theorem erase_cons_head_deq {α : Type} [DecidableEq α] (x : α) (l : List α) :
    @List.erase _ instBEqOfDecidableEq (x :: l) x = l :=
  @List.erase_cons_head _ instBEqOfDecidableEq inferInstance x l

theorem slremove_cons_head (x : V × K) (l : List (V × K)) : slremove x (x :: l) = l :=
  erase_cons_head_deq x l

theorem sorted_slremove {l : List (V × K)} (x : V × K) (h : l.Sorted pLe) :
    (slremove x l).Sorted pLe :=
  List.Pairwise.sublist (slremove_sublist x l) h

/-- Replacing the pair of a present key: the common core of `__setitem__`'s
present branch, `update`'s incremental loop and the incremental merges. -/
theorem inv_replacePair {pd : PriorityDict K V} {k : K} {old : V} (v : V)
    (h : pd.Inv) (hold : dget? pd._dict k = some old) :
    PriorityDict.Inv ⟨dinsert pd._dict k v, sladd (v, k) (slremove (old, k) pd._list)⟩ := by
  have hmem : (k, old) ∈ pd._dict := dget?_some_mem hold
  refine ⟨nodupKeys_dinsert h.nodup k v, ?_, sorted_sladd _ (sorted_slremove _ h.sorted)⟩
  have h1 : (slremove (old, k) pd._list).Perm (slremove (old, k) (pd._dict.map swapP)) :=
    slremove_perm _ h.corr
  have h2 : (slremove (old, k) (pd._dict.map swapP)).Perm ((derase pd._dict k).map swapP) := by
    have hx : (pd._dict.map swapP).Perm ((old, k) :: (derase pd._dict k).map swapP) := by
      have := (perm_cons_derase h.nodup hmem).map swapP
      simpa [swapP] using this
    have hy := slremove_perm (old, k) hx
    rw [slremove_cons_head] at hy
    exact hy
  have h3 : ((k, v) :: derase pd._dict k).Perm (dinsert pd._dict k v) :=
    (dinsert_perm v h.nodup hmem).symm
  have h4 : ((v, k) :: (derase pd._dict k).map swapP).Perm ((dinsert pd._dict k v).map swapP) := by
    have := h3.map swapP
    simpa [swapP] using this
  exact (perm_sladd _ _).trans (((h1.trans h2).cons (v, k)).trans h4)

/-- Inserting a pair for an absent key: `__setitem__`'s absent branch and the
absent branch of the Sum/Max incremental merges. -/
theorem inv_appendPair {pd : PriorityDict K V} {k : K} (v : V)
    (h : pd.Inv) (hnone : dget? pd._dict k = none) :
    PriorityDict.Inv ⟨dinsert pd._dict k v, sladd (v, k) pd._list⟩ := by
  refine ⟨nodupKeys_dinsert h.nodup k v, ?_, sorted_sladd _ h.sorted⟩
  show (sladd (v, k) pd._list).Perm ((dinsert pd._dict k v).map swapP)
  rw [dinsert_of_none v hnone]
  have h1 : (sladd (v, k) pd._list).Perm ((v, k) :: pd._dict.map swapP) :=
    (perm_sladd _ _).trans (h.corr.cons _)
  have h2 : ((v, k) :: pd._dict.map swapP).Perm (pd._dict.map swapP ++ [(v, k)]) :=
    (List.perm_append_singleton _ _).symm
  have h3 : pd._dict.map swapP ++ [(v, k)] = (pd._dict ++ [(k, v)]).map swapP := by
    simp [swapP]
  exact (h1.trans h2).trans (h3 ▸ List.Perm.refl _)

/-- Removing a present entry from both indices: `__delitem__` and `pop`. -/
theorem inv_removePair {pd : PriorityDict K V} {k : K} {v : V}
    (h : pd.Inv) (hold : dget? pd._dict k = some v) :
    PriorityDict.Inv ⟨derase pd._dict k, slremove (v, k) pd._list⟩ := by
  have hmem : (k, v) ∈ pd._dict := dget?_some_mem hold
  refine ⟨nodupKeys_derase h.nodup k, ?_, sorted_slremove _ h.sorted⟩
  have h1 : (slremove (v, k) pd._list).Perm (slremove (v, k) (pd._dict.map swapP)) :=
    slremove_perm _ h.corr
  have hx : (pd._dict.map swapP).Perm ((v, k) :: (derase pd._dict k).map swapP) := by
    have := (perm_cons_derase h.nodup hmem).map swapP
    simpa [swapP] using this
  have hy := slremove_perm (v, k) hx
  rw [slremove_cons_head] at hy
  exact h1.trans hy

/-- A rebuilt container (fresh sort of the dict's swapped items) satisfies
the invariant as soon as the dict is a dict. -/
theorem inv_rebuilt {d : List (K × V)} (hd : NodupKeys d) :
    PriorityDict.Inv ⟨d, List.insertionSort pLe (d.map swapP)⟩ :=
  ⟨hd, List.perm_insertionSort pLe _, List.sorted_insertionSort pLe _⟩

/-- A rebuilt container (fresh sort of the dict's swapped items) satisfies
the invariant as soon as the dict is a dict; this is the shape every rebuild
path produces. -/
theorem nodupKeys_foldl {β : Type} {step : List (K × V) → β → List (K × V)}
    (hstep : ∀ d x, NodupKeys d → NodupKeys (step d x)) :
    ∀ (items : List β) (d : List (K × V)), NodupKeys d → NodupKeys (items.foldl step d) := by
  intro items
  induction items with
  | nil => intro d hd; exact hd
  | cons x rest ih => intro d hd; exact ih _ (hstep d x hd)

theorem inv_foldl {β : Type} {step : PriorityDict K V → β → PriorityDict K V}
    (hstep : ∀ s x, s.Inv → (step s x).Inv) :
    ∀ (items : List β) (s : PriorityDict K V), s.Inv → (items.foldl step s).Inv := by
  intro items
  induction items with
  | nil => intro s hs; exact hs
  | cons x rest ih => intro s hs; exact ih _ (hstep s x hs)

theorem nodupKeys_derase_step (d : List (K × V)) (e : V × K) (hd : NodupKeys d) :
    NodupKeys (derase d e.2) :=
  nodupKeys_derase hd e.2

theorem perm_cons_eraseIdx {l : List (V × K)} :
    ∀ {pos : Nat} {x : V × K}, l[pos]? = some x → l.Perm (x :: l.eraseIdx pos) := by
  induction l with
  | nil => intro pos x h; simp at h
  | cons a rest ih =>
    intro pos x h
    cases pos with
    | zero =>
      simp only [List.getElem?_cons_zero, Option.some.injEq] at h
      rw [← h]
      simp [List.eraseIdx]
    | succ n =>
      simp only [List.getElem?_cons_succ] at h
      have h1 := (ih h).cons a
      simp only [List.eraseIdx]
      exact h1.trans (List.Perm.swap x a (rest.eraseIdx n))

/-- Deleting a whole segment of `(value, key)` pairs from both indices keeps
them in lockstep: the dict loses exactly the segment's keys. -/
theorem perm_foldl_derase :
    ∀ {seg : List (V × K)} {d : List (K × V)} {rest : List (V × K)}, NodupKeys d →
      (d.map swapP).Perm (seg ++ rest) →
      ((seg.foldl (fun d e => derase d e.2) d).map swapP).Perm rest := by
  intro seg
  induction seg with
  | nil =>
    intro d rest hd hp
    simpa using hp
  | cons e seg' ih =>
    intro d rest hd hp
    have hmem : e ∈ d.map swapP := hp.mem_iff.mpr (List.mem_cons_self _ _)
    have hmemd : (e.2, e.1) ∈ d := by
      have : (e.1, e.2) ∈ d.map swapP := by
        have he : (e.1, e.2) = e := rfl
        rw [he]
        exact hmem
      exact swapP_mem.mp this
    have hx : (d.map swapP).Perm (e :: (derase d e.2).map swapP) := by
      have := (perm_cons_derase hd hmemd).map swapP
      simpa [swapP] using this
    have htail : ((derase d e.2).map swapP).Perm (seg' ++ rest) :=
      (hx.symm.trans hp).cons_inv
    exact ih (nodupKeys_derase hd e.2) htail

theorem inv_removeSeg {pd : PriorityDict K V} {seg rest : List (V × K)}
    (h : pd.Inv) (hsplit : pd._list.Perm (seg ++ rest)) (hsorted : rest.Sorted pLe) :
    PriorityDict.Inv ⟨seg.foldl (fun d e => derase d e.2) pd._dict, rest⟩ := by
  refine ⟨nodupKeys_foldl nodupKeys_derase_step seg pd._dict h.nodup, ?_, hsorted⟩
  exact (perm_foldl_derase h.nodup (h.corr.symm.trans hsplit)).symm

theorem inv_setitem {pd : PriorityDict K V} (h : pd.Inv) (k : K) (v : V) :
    (pd.setitem k v).Inv := by
  unfold PriorityDict.setitem
  cases hd : dget? pd._dict k with
  | some old => exact inv_replacePair v h hd
  | none => exact inv_appendPair v h hd

theorem inv_delitem {pd : PriorityDict K V} (h : pd.Inv) (k : K) :
    (resState (pd.delitem k)).Inv := by
  unfold PriorityDict.delitem
  cases hd : dget? pd._dict k with
  | none => exact h
  | some v => exact inv_removePair h hd

theorem inv_popKey {pd : PriorityDict K V} (h : pd.Inv) (k : K) (dflt : Option V) :
    (resStateV (pd.popKey k dflt)).Inv := by
  unfold PriorityDict.popKey
  cases hd : dget? pd._dict k with
  | some v => exact inv_removePair h hd
  | none => cases dflt with
    | some dv => exact h
    | none => exact h

theorem inv_eraseAtPos {pd : PriorityDict K V} {pos : Nat} {k : K} {v : V}
    (h : pd.Inv) (hx : pd._list[pos]? = some (v, k)) :
    PriorityDict.Inv ⟨derase pd._dict k, pd._list.eraseIdx pos⟩ := by
  have hsplit : pd._list.Perm ([(v, k)] ++ pd._list.eraseIdx pos) :=
    perm_cons_eraseIdx hx
  have hsorted : (pd._list.eraseIdx pos).Sorted pLe :=
    List.Pairwise.sublist (List.eraseIdx_sublist pd._list pos) h.sorted
  exact inv_removeSeg h hsplit hsorted

theorem inv_popitem {pd : PriorityDict K V} (h : pd.Inv) (i : Int) :
    (resStateV (pd.popitem i)).Inv := by
  unfold PriorityDict.popitem
  split
  · exact h
  · split
    · rename_i pos heqn v k hx
      exact inv_eraseAtPos h hx
    · exact h

theorem inv_delAt {pd : PriorityDict K V} (h : pd.Inv) (i : Int) :
    (resState (pd.delAt i)).Inv := by
  unfold PriorityDict.delAt
  split
  · exact h
  · split
    · rename_i pos heqn v k hx
      exact inv_eraseAtPos h hx
    · exact h

theorem inv_clean {pd : PriorityDict K V} (h : pd.Inv) (t : V) : (pd.clean t).Inv := by
  unfold PriorityDict.clean
  have hsplit : pd._list.Perm
      (pd._list.take (slBisectRight pd._list t) ++ pd._list.drop (slBisectRight pd._list t)) := by
    rw [List.take_append_drop]
  have hsorted : (pd._list.drop (slBisectRight pd._list t)).Sorted pLe :=
    List.Pairwise.sublist (List.drop_sublist _ _) h.sorted
  exact inv_removeSeg h hsplit hsorted

theorem inv_removeMiddle {pd : PriorityDict K V} (h : pd.Inv) (lo hi : Nat)
    (hlohi : lo ≤ hi) :
    PriorityDict.Inv
      ⟨((pd._list.drop lo).take (hi - lo)).foldl (fun d e => derase d e.2) pd._dict,
        pd._list.take lo ++ pd._list.drop hi⟩ := by
  have hdrop : (pd._list.drop lo).drop (hi - lo) = pd._list.drop hi := by
    rw [List.drop_drop]
    have he : lo + (hi - lo) = hi := by omega
    rw [he]
  have hdecomp : pd._list =
      (pd._list.take lo ++ (pd._list.drop lo).take (hi - lo)) ++ pd._list.drop hi := by
    rw [List.append_assoc, ← hdrop, List.take_append_drop, List.take_append_drop]
  have hsplit : pd._list.Perm
      ((pd._list.drop lo).take (hi - lo) ++ (pd._list.take lo ++ pd._list.drop hi)) := by
    have h1 : ((pd._list.take lo ++ (pd._list.drop lo).take (hi - lo)) ++ pd._list.drop hi).Perm
        ((pd._list.drop lo).take (hi - lo) ++ (pd._list.take lo ++ pd._list.drop hi)) := by
      rw [← List.append_assoc]
      exact List.Perm.append_right _ List.perm_append_comm
    conv_lhs => rw [hdecomp]
    exact h1
  have hsorted : (pd._list.take lo ++ pd._list.drop hi).Sorted pLe := by
    have hsub : List.Sublist (pd._list.take lo ++ pd._list.drop hi) pd._list := by
      conv_rhs => rw [← List.take_append_drop lo pd._list]
      apply List.Sublist.append_left
      rw [← hdrop]
      exact List.drop_sublist _ _
    exact List.Pairwise.sublist hsub h.sorted
  exact inv_removeSeg h hsplit hsorted

theorem inv_delRange {pd : PriorityDict K V} (h : pd.Inv) (a b : Int) :
    (pd.delRange a b).Inv :=
  inv_removeMiddle h (clampIdx pd._list.length a)
    (max (clampIdx pd._list.length a) (clampIdx pd._list.length b)) (le_max_left _ _)

theorem inv_updateInc :
    ∀ (items : List (K × V)) (pd : PriorityDict K V), pd.Inv →
      (resState (pd.updateInc items)).Inv := by
  intro items
  induction items with
  | nil => intro pd h; exact h
  | cons kv rest ih =>
    intro pd h
    obtain ⟨k, v⟩ := kv
    unfold PriorityDict.updateInc
    cases hd : dget? pd._dict k with
    | none => exact h
    | some old => exact ih _ (inv_replacePair v h hd)

theorem inv_update {pd : PriorityDict K V} (h : pd.Inv) (args : List (K × V)) :
    (resState (pd.update args)).Inv := by
  unfold PriorityDict.update
  by_cases hc : 10 * (dictOfList args).length > pd._dict.length
  · rw [if_pos hc]
    exact inv_rebuilt (nodupKeys_foldl (fun d kv hd => nodupKeys_dinsert hd kv.1 kv.2) _ _ h.nodup)
  · rw [if_neg hc]
    exact inv_updateInc _ pd h

theorem nodupKeys_dinsert_step (d : List (K × V)) (kv : K × V) (hd : NodupKeys d) :
    NodupKeys (dinsert d kv.1 kv.2) :=
  nodupKeys_dinsert hd kv.1 kv.2

theorem nodupKeys_dictOfList (items : List (K × V)) : NodupKeys (dictOfList items) :=
  nodupKeys_foldl nodupKeys_dinsert_step items [] (by simp [NodupKeys])

theorem inv_incStep (f : V → V → V) (keepAbsent : Bool) :
    ∀ (s : PriorityDict K V) (kv : K × V), s.Inv → (incStep f keepAbsent s kv).Inv := by
  intro s kv h
  unfold incStep
  split
  · rename_i old hd
    exact inv_replacePair _ h hd
  · rename_i hd
    split
    · exact inv_appendPair _ h hd
    · exact h

section MergeInv

variable [Add V] [Sub V]

theorem nodupKeys_addStep (d : List (K × V)) (kv : K × V) (hd : NodupKeys d) :
    NodupKeys (addStep d kv) := by
  unfold addStep
  split
  · exact nodupKeys_dinsert hd _ _
  · exact nodupKeys_dinsert hd _ _

theorem nodupKeys_subStep (d : List (K × V)) (kv : K × V) (hd : NodupKeys d) :
    NodupKeys (subStep d kv) := by
  unfold subStep
  split
  · exact nodupKeys_dinsert hd _ _
  · exact hd

theorem nodupKeys_orStep (d : List (K × V)) (kv : K × V) (hd : NodupKeys d) :
    NodupKeys (orStep d kv) := by
  unfold orStep
  split
  · exact nodupKeys_dinsert hd _ _
  · exact nodupKeys_dinsert hd _ _

theorem nodupKeys_andStep (d : List (K × V)) (kv : K × V) (hd : NodupKeys d) :
    NodupKeys (andStep d kv) := by
  unfold andStep
  split
  · exact nodupKeys_dinsert hd _ _
  · exact hd

theorem list_nil_of_dict_nil {pd : PriorityDict K V} (h : pd.Inv)
    (h0 : pd._dict = []) : pd._list = [] := by
  have hc := h.corr
  rw [h0] at hc
  simpa using hc.eq_nil

theorem inv_iadd {pd : PriorityDict K V} (h : pd.Inv) (that : List (K × V)) :
    (pd.iadd that).Inv := by
  unfold PriorityDict.iadd
  by_cases h0 : pd._dict.length = 0
  · rw [if_pos h0]
    rw [list_nil_of_dict_nil h (List.length_eq_zero.mp h0)]
    simp only [List.nil_append]
    exact inv_rebuilt (nodupKeys_foldl nodupKeys_dinsert_step _ _ h.nodup)
  · rw [if_neg h0]
    by_cases h3 : that.length * 3 > pd._dict.length
    · rw [if_pos h3]
      exact inv_rebuilt (nodupKeys_foldl nodupKeys_addStep _ _ h.nodup)
    · rw [if_neg h3]
      exact inv_foldl (inv_incStep _ _) that pd h

theorem inv_isub {pd : PriorityDict K V} (h : pd.Inv) (that : List (K × V)) :
    (pd.isub that).Inv := by
  unfold PriorityDict.isub
  by_cases h0 : pd._dict.length = 0
  · rw [if_pos h0]
    exact ⟨by simp [NodupKeys], by simp, by simp⟩
  · rw [if_neg h0]
    by_cases h3 : that.length * 3 > pd._dict.length
    · rw [if_pos h3]
      exact inv_rebuilt (nodupKeys_foldl nodupKeys_subStep _ _ h.nodup)
    · rw [if_neg h3]
      exact inv_foldl (inv_incStep _ _) that pd h

theorem inv_ior {pd : PriorityDict K V} (h : pd.Inv) (that : List (K × V)) :
    (pd.ior that).Inv := by
  unfold PriorityDict.ior
  by_cases h0 : pd._dict.length = 0
  · rw [if_pos h0]
    rw [list_nil_of_dict_nil h (List.length_eq_zero.mp h0)]
    simp only [List.nil_append]
    exact inv_rebuilt (nodupKeys_foldl nodupKeys_dinsert_step _ _ h.nodup)
  · rw [if_neg h0]
    by_cases h3 : that.length * 3 > pd._dict.length
    · rw [if_pos h3]
      exact inv_rebuilt (nodupKeys_foldl nodupKeys_orStep _ _ h.nodup)
    · rw [if_neg h3]
      exact inv_foldl (inv_incStep _ _) that pd h

theorem inv_iand {pd : PriorityDict K V} (h : pd.Inv) (that : List (K × V)) :
    (pd.iand that).Inv := by
  unfold PriorityDict.iand
  by_cases h0 : pd._dict.length = 0
  · rw [if_pos h0]
    exact ⟨by simp [NodupKeys], by simp, by simp⟩
  · rw [if_neg h0]
    by_cases h3 : that.length * 3 > pd._dict.length
    · rw [if_pos h3]
      exact inv_rebuilt (nodupKeys_foldl nodupKeys_andStep _ _ h.nodup)
    · rw [if_neg h3]
      exact inv_foldl (inv_incStep _ _) that pd h

theorem inv_addCopy {pd : PriorityDict K V} (that : List (K × V)) : (pd.addCopy that).Inv :=
  inv_rebuilt (nodupKeys_foldl nodupKeys_addStep _ _ (nodupKeys_dictOfList _))

theorem inv_subCopy {pd : PriorityDict K V} (that : List (K × V)) : (pd.subCopy that).Inv :=
  inv_rebuilt (nodupKeys_foldl nodupKeys_subStep _ _ (nodupKeys_dictOfList _))

theorem inv_orCopy {pd : PriorityDict K V} (that : List (K × V)) : (pd.orCopy that).Inv :=
  inv_rebuilt (nodupKeys_foldl nodupKeys_orStep _ _ (nodupKeys_dictOfList _))

theorem inv_andCopy {pd : PriorityDict K V} (that : List (K × V)) : (pd.andCopy that).Inv :=
  inv_rebuilt (nodupKeys_foldl nodupKeys_andStep _ _ (nodupKeys_dictOfList _))

theorem inv_applyOp {pd : PriorityDict K V} (h : pd.Inv) (op : Op K V) :
    (applyOp pd op).Inv := by
  cases op with
  | set k v => exact inv_setitem h k v
  | del k => exact inv_delitem h k
  | popKey k dflt => exact inv_popKey h k dflt
  | popitem i => exact inv_popitem h i
  | upd items => exact inv_update h items
  | iaddOp that => exact inv_iadd h that
  | isubOp that => exact inv_isub h that
  | iorOp that => exact inv_ior h that
  | iandOp that => exact inv_iand h that
  | addOp that => exact inv_addCopy that
  | subOp that => exact inv_subCopy that
  | orOp that => exact inv_orCopy that
  | andOp that => exact inv_andCopy that
  | prune t => exact inv_clean h t
  | delAtOp i => exact inv_delAt h i
  | delRangeOp a b => exact inv_delRange h a b

theorem inv_runOps {pd : PriorityDict K V} (h : pd.Inv) (ops : List (Op K V)) :
    (runOps pd ops).Inv := by
  induction ops generalizing pd with
  | nil => exact h
  | cons op rest ih => exact ih (inv_applyOp h op)

end MergeInv

theorem inv_stateOK {pd : PriorityDict K V} (h : pd.Inv) : StateOK pd := by
  refine ⟨?_, ?_, ?_, h.sorted⟩
  · have hl := h.corr.length_eq
    rw [List.length_map] at hl
    exact hl.symm
  · intro k v
    exact (swapP_mem.symm).trans h.corr.mem_iff.symm
  · intro k v hm
    have h1 : slcount (v, k) pd._list = slcount (v, k) (pd._dict.map swapP) :=
      h.corr.count_eq _
    rw [h1]
    exact List.count_eq_one_of_mem (nodup_map_swapP h.nodup) (swapP_mem.mpr hm)

theorem findIdx_neg_eq_length_takeWhile {α : Type} (p : α → Bool) (l : List α) :
    l.findIdx (fun a => !(p a)) = (l.takeWhile p).length := by
  induction l with
  | nil => rfl
  | cons a rest ih =>
    cases hp : p a with
    | true => simp [List.findIdx_cons, List.takeWhile_cons, hp, ih]
    | false => simp [List.findIdx_cons, List.takeWhile_cons, hp]

theorem findIdx_neg_take {α : Type} (p : α → Bool) (l : List α) :
    l.take (l.findIdx (fun a => !(p a))) = l.takeWhile p := by
  induction l with
  | nil => rfl
  | cons a rest ih =>
    cases hp : p a with
    | true => simp [List.findIdx_cons, List.takeWhile_cons, hp, ih]
    | false => simp [List.findIdx_cons, List.takeWhile_cons, hp]

theorem findIdx_neg_drop {α : Type} (p : α → Bool) (l : List α) :
    l.drop (l.findIdx (fun a => !(p a))) = l.dropWhile p := by
  induction l with
  | nil => rfl
  | cons a rest ih =>
    cases hp : p a with
    | true => simp [List.findIdx_cons, List.dropWhile_cons, hp, ih]
    | false => simp [List.findIdx_cons, List.dropWhile_cons, hp]

theorem findIdx_dropWhile_zero {α : Type} (p : α → Bool) (l : List α) :
    (l.dropWhile p).findIdx (fun a => !(p a)) = 0 := by
  induction l with
  | nil => rfl
  | cons a rest ih =>
    rw [List.dropWhile_cons]
    cases hp : p a with
    | true => simpa [hp] using ih
    | false => simp [List.findIdx_cons, hp]

theorem length_takeWhile_eq_countP {α : Type} {p : α → Bool} {l : List α}
    (hmono : l.Pairwise (fun a b => p b = true → p a = true)) :
    (l.takeWhile p).length = l.countP p := by
  induction l with
  | nil => rfl
  | cons a rest ih =>
    rw [List.pairwise_cons] at hmono
    cases hp : p a with
    | true =>
      rw [List.takeWhile_cons, List.countP_cons]
      simp [hp, ih hmono.2]
    | false =>
      rw [List.takeWhile_cons, List.countP_cons]
      have hzero : rest.countP p = 0 := by
        rw [List.countP_eq_zero]
        intro e he hpe
        have := hmono.1 e he hpe
        rw [hp] at this
        exact Bool.noConfusion this
      simp [hp, hzero]

theorem sorted_fst_pairwise {l : List (V × K)} (h : l.Sorted pLe) :
    l.Pairwise (fun a b => a.1 ≤ b.1) :=
  List.Pairwise.imp (fun hab => pLe_fst_le hab) h

theorem dropWhile_fst_gt {t : V} {l : List (V × K)}
    (h : l.Pairwise (fun a b => a.1 ≤ b.1)) :
    ∀ e ∈ l.dropWhile (fun e => leProbeBig e t), t < e.1 := by
  induction l with
  | nil => intro e he; simp at he
  | cons a rest ih =>
    rw [List.pairwise_cons] at h
    intro e he
    rw [List.dropWhile_cons] at he
    cases hp : leProbeBig a t with
    | true =>
      simp only [hp] at he
      simp only [if_true] at he
      exact ih h.2 e he
    | false =>
      simp only [hp] at he
      simp only [Bool.false_eq_true, if_false] at he
      have ha : t < a.1 := by
        have hb : ¬(a.1 ≤ t) := by simpa [leProbeBig] using hp
        exact lt_of_not_le hb
      rcases List.mem_cons.mp he with rfl | he2
      · exact ha
      · exact lt_of_lt_of_le ha (h.1 e he2)

theorem countP_le_split (t : V) (l : List (V × K)) :
    l.countP (fun e => leProbeBig e t) =
      l.countP (fun e => ltProbe1 e t) + l.countP (fun e => decide (e.1 = t)) := by
  induction l with
  | nil => rfl
  | cons a rest ih =>
    rw [List.countP_cons, List.countP_cons, List.countP_cons, ih]
    rcases lt_trichotomy a.1 t with h | h | h
    · have h1 : a.1 ≤ t := le_of_lt h
      have h2 : a.1 ≠ t := ne_of_lt h
      simp only [leProbeBig, ltProbe1]
      simp [h, h1, h2]
      omega
    · have h1 : a.1 ≤ t := le_of_eq h
      have h2 : ¬(a.1 < t) := by rw [h]; exact lt_irrefl t
      simp only [leProbeBig, ltProbe1]
      simp [h, h1, h2]
      omega
    · have h1 : ¬(a.1 ≤ t) := not_le_of_lt h
      have h2 : ¬(a.1 < t) := fun hc => absurd (hc.trans h) (lt_irrefl _)
      have h3 : a.1 ≠ t := ne_of_gt h
      simp only [leProbeBig, ltProbe1]
      simp [h1, h2, h3]

theorem clean_eq (pd : PriorityDict K V) (t : V) :
    pd.clean t =
      ⟨(pd._list.takeWhile (fun e => leProbeBig e t)).foldl
          (fun d e => derase d e.2) pd._dict,
        pd._list.dropWhile (fun e => leProbeBig e t)⟩ := by
  show (⟨(pd._list.take (pd._list.findIdx (fun e => !(leProbeBig e t)))).foldl
      (fun d e => derase d e.2) pd._dict,
    pd._list.drop (pd._list.findIdx (fun e => !(leProbeBig e t)))⟩ : PriorityDict K V) = _
  rw [findIdx_neg_take (fun e => leProbeBig e t),
    findIdx_neg_drop (fun e => leProbeBig e t)]

theorem mem_foldl_derase {seg : List (V × K)} :
    ∀ {d0 : List (K × V)} {k : K} {v : V},
      ((k, v) ∈ seg.foldl (fun d e => derase d e.2) d0) ↔
        ((k, v) ∈ d0 ∧ ∀ e ∈ seg, e.2 ≠ k) := by
  induction seg with
  | nil =>
    intro d0 k v
    simp
  | cons e seg' ih =>
    intro d0 k v
    rw [List.foldl_cons, ih]
    unfold derase
    rw [List.mem_filter]
    simp only [decide_eq_true_eq]
    constructor
    · rintro ⟨⟨hm, hne⟩, hall⟩
      refine ⟨hm, ?_⟩
      intro e' he'
      rcases List.mem_cons.mp he' with he' | he'
      · rw [he']
        exact Ne.symm hne
      · exact hall e' he'
    · rintro ⟨hm, hall⟩
      refine ⟨⟨hm, Ne.symm (hall e (List.mem_cons_self _ _))⟩, ?_⟩
      intro e' he'
      exact hall e' (List.mem_cons_of_mem _ he')

theorem clean_list_mem {pd : PriorityDict K V} (h : pd.Inv) (t v : V) (k : K) :
    (v, k) ∈ (pd.clean t)._list ↔ ((v, k) ∈ pd._list ∧ t < v) := by
  rw [clean_eq]
  constructor
  · intro hm
    have hsub : List.Sublist
        (pd._list.dropWhile (fun e => leProbeBig e t)) pd._list :=
      List.dropWhile_sublist _
    exact ⟨hsub.subset hm, dropWhile_fst_gt (sorted_fst_pairwise h.sorted) (v, k) hm⟩
  · rintro ⟨hm, ht⟩
    have hsplit : pd._list.takeWhile (fun e => leProbeBig e t) ++
        pd._list.dropWhile (fun e => leProbeBig e t) = pd._list := by
      rw [List.takeWhile_append_dropWhile]
    rw [← hsplit] at hm
    rcases List.mem_append.mp hm with hin | hin
    · have hp := List.mem_takeWhile_imp hin
      have : v ≤ t := by simpa [leProbeBig] using hp
      exact absurd ht (not_lt_of_le this)
    · exact hin

theorem clean_dict_mem {pd : PriorityDict K V} (h : pd.Inv) (t : V) (k : K) (v : V) :
    (k, v) ∈ (pd.clean t)._dict ↔ ((k, v) ∈ pd._dict ∧ t < v) := by
  rw [clean_eq]
  show ((k, v) ∈ (pd._list.takeWhile (fun e => leProbeBig e t)).foldl
      (fun d e => derase d e.2) pd._dict) ↔ _
  rw [mem_foldl_derase]
  constructor
  · rintro ⟨hm, hall⟩
    refine ⟨hm, ?_⟩
    by_contra hle
    push_neg at hle
    have hvl : (v, k) ∈ pd._list := ((inv_stateOK h).2.1 k v).mp hm
    have hsplit : pd._list.takeWhile (fun e => leProbeBig e t) ++
        pd._list.dropWhile (fun e => leProbeBig e t) = pd._list := by
      rw [List.takeWhile_append_dropWhile]
    rw [← hsplit] at hvl
    rcases List.mem_append.mp hvl with hin | hin
    · exact (hall (v, k) hin) rfl
    · exact absurd (dropWhile_fst_gt (sorted_fst_pairwise h.sorted) (v, k) hin)
        (not_lt_of_le hle)
  · rintro ⟨hm, ht⟩
    refine ⟨hm, ?_⟩
    intro e he hek
    have hp := List.mem_takeWhile_imp he
    have h1 : e.1 ≤ t := by simpa [leProbeBig] using hp
    have hel : e ∈ pd._list := (List.takeWhile_sublist _).subset he
    have hed : (e.2, e.1) ∈ pd._dict := by
      have hswap : (e.1, e.2) ∈ pd._list := by
        have hee : (e.1, e.2) = e := rfl
        rw [hee]
        exact hel
      exact ((inv_stateOK h).2.1 e.2 e.1).mpr hswap
    rw [hek] at hed
    have hg1 := dget?_mem h.nodup hed
    have hg2 := dget?_mem h.nodup hm
    rw [hg1] at hg2
    have hev : e.1 = v := by injection hg2
    rw [hev] at h1
    exact absurd ht (not_lt_of_le h1)

theorem clean_of_pos_zero {pd : PriorityDict K V} {t : V}
    (h0 : slBisectRight pd._list t = 0) : pd.clean t = pd := by
  unfold PriorityDict.clean
  rw [h0]
  simp

theorem clean_idem (pd : PriorityDict K V) (t : V) :
    (pd.clean t).clean t = pd.clean t := by
  apply clean_of_pos_zero
  have hl : (pd.clean t)._list = pd._list.dropWhile (fun e => leProbeBig e t) := by
    rw [clean_eq]
  rw [hl]
  exact findIdx_dropWhile_zero _ _

theorem dget?_dinsert_self (d : List (K × V)) (k : K) (v : V) :
    dget? (dinsert d k v) k = some v := by
  induction d with
  | nil => exact dget?_cons_self
  | cons kv rest ih =>
    obtain ⟨k0, v0⟩ := kv
    by_cases he : k0 = k
    · have h1 : dinsert ((k0, v0) :: rest) k v = (k, v) :: rest := by
        simp [dinsert, he]
      rw [h1]
      exact dget?_cons_self
    · have h1 : dinsert ((k0, v0) :: rest) k v = (k0, v0) :: dinsert rest k v := by
        simp [dinsert, he]
      rw [h1, dget?_cons_ne he]
      exact ih

theorem dget?_dinsert_ne {k' k : K} (d : List (K × V)) (v : V) (hne : k' ≠ k) :
    dget? (dinsert d k v) k' = dget? d k' := by
  induction d with
  | nil =>
    have h1 : dinsert ([] : List (K × V)) k v = [(k, v)] := rfl
    rw [h1, dget?_cons_ne (Ne.symm hne)]
  | cons kv rest ih =>
    obtain ⟨k0, v0⟩ := kv
    by_cases he : k0 = k
    · have h1 : dinsert ((k0, v0) :: rest) k v = (k, v) :: rest := by
        simp [dinsert, he]
      have hk0 : k0 ≠ k' := by
        rw [he]
        exact Ne.symm hne
      rw [h1, dget?_cons_ne (Ne.symm hne), dget?_cons_ne hk0]
    · have h1 : dinsert ((k0, v0) :: rest) k v = (k0, v0) :: dinsert rest k v := by
        simp [dinsert, he]
      by_cases he2 : k0 = k'
      · rw [h1, he2, dget?_cons_self, dget?_cons_self]
      · rw [h1, dget?_cons_ne he2, dget?_cons_ne he2]
        exact ih

theorem nodupKeys_tail {kv : K × V} {rest : List (K × V)}
    (h : NodupKeys (kv :: rest)) : NodupKeys rest := by
  unfold NodupKeys at *
  rw [List.map_cons, List.nodup_cons] at h
  exact h.2

theorem nodupKeys_head_not_mem {k0 : K} {v0 : V} {rest : List (K × V)}
    (h : NodupKeys ((k0, v0) :: rest)) : dget? rest k0 = none := by
  unfold NodupKeys at h
  rw [List.map_cons, List.nodup_cons] at h
  rw [dget?_eq_none_iff_keys]
  exact h.1

section FoldLookup

variable [Add V] [Sub V]

theorem dget?_addStep_ne {k' : K} (d : List (K × V)) (kv : K × V) (hne : k' ≠ kv.1) :
    dget? (addStep d kv) k' = dget? d k' := by
  unfold addStep
  cases hd : dget? d kv.1 with
  | some a => exact dget?_dinsert_ne d (a + kv.2) hne
  | none => exact dget?_dinsert_ne d kv.2 hne

theorem dget?_subStep_ne {k' : K} (d : List (K × V)) (kv : K × V) (hne : k' ≠ kv.1) :
    dget? (subStep d kv) k' = dget? d k' := by
  unfold subStep
  cases hd : dget? d kv.1 with
  | some a => exact dget?_dinsert_ne d (a - kv.2) hne
  | none => rfl

theorem dget?_foldl_addStep :
    ∀ {B d : List (K × V)} {k : K}, NodupKeys B →
      dget? (B.foldl addStep d) k =
        match dget? B k, dget? d k with
        | some b, some a => some (a + b)
        | some b, none => some b
        | none, o => o := by
  intro B
  induction B with
  | nil =>
    intro d k _
    have h0 : dget? ([] : List (K × V)) k = none := rfl
    rw [List.foldl_nil, h0]
  | cons kv B' ih =>
    intro d k hB
    obtain ⟨k0, v0⟩ := kv
    rw [List.foldl_cons, ih (nodupKeys_tail hB)]
    by_cases he : k0 = k
    · subst he
      rw [dget?_cons_self, nodupKeys_head_not_mem hB]
      unfold addStep
      cases hd : dget? d k0 with
      | some a => simp [dget?_dinsert_self]
      | none => simp [dget?_dinsert_self]
    · rw [dget?_cons_ne he]
      have hstep : dget? (addStep d (k0, v0)) k = dget? d k :=
        dget?_addStep_ne d (k0, v0) (Ne.symm he)
      rw [hstep]

theorem dget?_foldl_subStep :
    ∀ {B d : List (K × V)} {k : K}, NodupKeys B →
      dget? (B.foldl subStep d) k =
        match dget? B k, dget? d k with
        | some b, some a => some (a - b)
        | _, o => o := by
  intro B
  induction B with
  | nil =>
    intro d k _
    have h0 : dget? ([] : List (K × V)) k = none := rfl
    rw [List.foldl_nil, h0]
  | cons kv B' ih =>
    intro d k hB
    obtain ⟨k0, v0⟩ := kv
    rw [List.foldl_cons, ih (nodupKeys_tail hB)]
    by_cases he : k0 = k
    · subst he
      rw [dget?_cons_self, nodupKeys_head_not_mem hB]
      unfold subStep
      cases hd : dget? d k0 with
      | some a => simp [dget?_dinsert_self]
      | none => simp [hd]
    · rw [dget?_cons_ne he]
      have hstep : dget? (subStep d (k0, v0)) k = dget? d k :=
        dget?_subStep_ne d (k0, v0) (Ne.symm he)
      rw [hstep]

end FoldLookup

theorem foldl_dinsert_disjoint :
    ∀ {items acc : List (K × V)}, NodupKeys items →
      (∀ kv ∈ items, kv.1 ∉ acc.map Prod.fst) →
      items.foldl (fun d kv => dinsert d kv.1 kv.2) acc = acc ++ items := by
  intro items
  induction items with
  | nil =>
    intro acc _ _
    simp
  | cons kv rest ih =>
    intro acc h1 h2
    rw [List.foldl_cons]
    have hfresh : dget? acc kv.1 = none := by
      rw [dget?_eq_none_iff_keys]
      exact h2 kv (List.mem_cons_self _ _)
    rw [dinsert_of_none _ hfresh]
    have h2' : ∀ kv' ∈ rest, kv'.1 ∉ (acc ++ [kv]).map Prod.fst := by
      intro kv' hm
      rw [List.map_append, List.mem_append]
      rintro (hin | hin)
      · exact h2 kv' (List.mem_cons_of_mem _ hm) hin
      · simp only [List.map_cons, List.map_nil, List.mem_singleton] at hin
        unfold NodupKeys at h1
        rw [List.map_cons, List.nodup_cons] at h1
        exact h1.1 (hin ▸ List.mem_map.mpr ⟨kv', hm, rfl⟩)
    rw [ih (nodupKeys_tail h1) h2']
    simp

theorem dictOfList_eq_self {items : List (K × V)} (h : NodupKeys items) :
    dictOfList items = items := by
  unfold dictOfList
  rw [foldl_dinsert_disjoint h (by simp)]
  simp

theorem getD_set_self {α : Type} (x dflt : α) :
    ∀ (l : List α) (i : Nat), i < l.length → (l.set i x).getD i dflt = x := by
  intro l
  induction l with
  | nil =>
    intro i hi
    simp at hi
  | cons a rest ih =>
    intro i hi
    cases i with
    | zero => rfl
    | succ n =>
      simp only [List.set_cons_succ, List.getD_cons_succ]
      exact ih n (by simpa using hi)

theorem dget?_setitem_self (pd : PriorityDict K V) (k : K) (v : V) :
    dget? (pd.setitem k v)._dict k = some v := by
  unfold PriorityDict.setitem
  cases hd : dget? pd._dict k with
  | some old => exact dget?_dinsert_self _ _ _
  | none => exact dget?_dinsert_self _ _ _

theorem getitemH_setitemH_self (h : Heap K V) (o : PDObj) (k : K) (v : V)
    (hlt : o.dictRef < h.dicts.length) :
    getitemH (setitemH h o k v) o k = some v := by
  simp only [getitemH, setitemH]
  rw [getD_set_self _ _ _ _ hlt]
  exact dget?_setitem_self _ k v

theorem normIdx_zero (i : Int) : normIdx 0 i = none := by
  simp only [normIdx]
  by_cases hi : i < 0
  · rw [if_pos hi, if_neg]
    rintro ⟨h1, h2⟩
    omega
  · rw [if_neg hi, if_neg]
    rintro ⟨h1, h2⟩
    omega

/-- Claim C1: for every container state satisfying the structural invariant
and every sequence of public operations (set, delete, pop, popitem, update,
the four in-place and the four copy-producing merges, prune, and positional
delete by index or slice), after each call returns — i.e. after every prefix
of the sequence — the Mapping Index and the Order Index have equal
cardinality, every key k with value v in the Mapping Index corresponds to
exactly one pair (v, k) in the Order Index and vice versa, and the Order
Index is sorted ascending by (value, key).  The proof shows the stronger
fact that the invariants also hold in the state a failed call leaves behind. -/
theorem C1_theorem {K V : Type} [LinearOrder K] [LinearOrder V] [Add V] [Sub V]
    (pd : PriorityDict K V) (ops : List (Op K V)) (h : pd.Inv) :
    ∀ n : Nat, StateOK (runOps pd (ops.take n)) :=
  fun _n => inv_stateOK (inv_runOps h _)

theorem C1_witness : StateOK (runOps pdW (opsW.take 5)) :=
  C1_theorem pdW opsW ⟨by decide, by decide, by decide⟩ 5

/-- Claim C2 (code evaluation at the failing input): on the incremental path
(taken when 10·m ≤ n), `update` evaluates `old_value = self._dict[key]` and
raises `KeyError` for a key absent from the container instead of adding it:
a ten-entry container updated with the absent key 100 raises, contradicting
the claim that update succeeds on both heuristic paths and afterwards every
argument key is present (which is also what the method's docstring promises). -/
theorem C2_theorem : pd10.update [(100, 5)] = .error (.keyError, pd10) := rfl

/-- Claim C3 (code evaluation at the failing input): constructing from the
bare key sequence ["a","b","a","b","b"] does not tally the keys into
{a: 2, b: 3} — `__init__` delegates to `update`, whose first step
`dict(iterable)` raises `ValueError` because the one-character string "a"
is not a key/value pair. -/
theorem C3_theorem : initFromKeys ["a", "b", "a", "b", "b"] = .error .valueError := rfl

/-- Claim C4 (counterexample): updating the twenty-entry container `pd20`
with {0: 7, 100: 1} takes the incremental path (10·2 ≤ 20), rebinds key 0,
then raises `KeyError` at the absent key 100 — the surfaced state differs
from the state before the call began, so the partial index update IS
observable. -/
theorem C4_counterexample :
    isErr (pd20.update c4items) = true ∧ resState (pd20.update c4items) ≠ pd20 := by
  constructor
  · rfl
  · decide

/-- Claim C4 (amended): an operation that fails before touching the indices
leaves the container exactly as it was — deleting an absent key raises
`KeyError` with the state unchanged, and a positional pop on an empty
container raises `IndexError` with the state unchanged — while `update`
raising `KeyError` mid-way on its incremental path may leave the
already-processed keys rebound (a partial update is observable there), yet
the state surfaced with any `update` error still satisfies invariants I1–I3. -/
theorem C4_theorem {K V : Type} [LinearOrder K] [LinearOrder V] :
    (∀ (pd : PriorityDict K V) (k : K), dget? pd._dict k = none →
        pd.delitem k = .error (.keyError, pd))
    ∧ (∀ (pd : PriorityDict K V) (i : Int), pd._list = [] →
        pd.popitem i = .error (.indexError, pd))
    ∧ (∀ (pd : PriorityDict K V) (args : List (K × V)) (e : Err)
        (s : PriorityDict K V), pd.Inv → pd.update args = .error (e, s) →
        StateOK s) := by
  refine ⟨?_, ?_, ?_⟩
  · intro pd k hnone
    unfold PriorityDict.delitem
    rw [hnone]
  · intro pd i hnil
    unfold PriorityDict.popitem
    rw [hnil]
    have h0 : (([] : List (V × K)).length) = 0 := rfl
    rw [h0, normIdx_zero]
  · intro pd args e s hInv herr
    have h1 := inv_update hInv args
    rw [herr] at h1
    exact inv_stateOK h1

theorem C4_witness :
    (pdAB.delitem 5 = Except.error (Err.keyError, pdAB))
    ∧ ((emptyPD Nat Int).popitem 0 = Except.error (Err.indexError, emptyPD Nat Int)) :=
  ⟨(@C4_theorem Nat Int _ _).1 pdAB 5 (by decide),
   (@C4_theorem Nat Int _ _).2.1 (emptyPD Nat Int) 0 rfl⟩

/-- Claim C5 (counterexample): `__isub__` invoked on an empty container with
the operand {1 ↦ 5} does NOT bulk-load the operand — the source's empty
branch runs `_dict.clear(); _list.clear()`, so the result is the empty
container and the operand's entry is absent, refuting "this empty-self
behaviour applies identically to all four in-place variants". -/
theorem C5_counterexample :
    (emptyPD Nat Int).isub [(1, 5)] = emptyPD Nat Int
    ∧ ((1 : Nat), (5 : Int)) ∉ ((emptyPD Nat Int).isub [(1, 5)])._dict := by
  constructor
  · rfl
  · decide

/-- Claim C5 (amended): on an empty self, Sum (`__iadd__`) and Max
(`__ior__`) bulk-load the operand and rebuild the Order Index — the result's
Mapping Index holds exactly the operand's entries — while Difference
(`__isub__`) and Min (`__iand__`) clear the container, leaving it empty. -/
theorem C5_theorem {K V : Type} [LinearOrder K] [LinearOrder V] [Add V] [Sub V]
    (that : List (K × V)) (h : NodupKeys that) :
    (∀ k v, (((k, v) ∈ ((emptyPD K V).iadd that)._dict) ↔ (k, v) ∈ that))
    ∧ (∀ k v, (((k, v) ∈ ((emptyPD K V).ior that)._dict) ↔ (k, v) ∈ that))
    ∧ (emptyPD K V).isub that = emptyPD K V
    ∧ (emptyPD K V).iand that = emptyPD K V := by
  have hd1 : ((emptyPD K V).iadd that)._dict = that := by
    show dictOfList that = that
    exact dictOfList_eq_self h
  have hd2 : ((emptyPD K V).ior that)._dict = that := by
    show dictOfList that = that
    exact dictOfList_eq_self h
  refine ⟨?_, ?_, rfl, rfl⟩
  · intro k v
    rw [hd1]
  · intro k v
    rw [hd2]

theorem C5_witness :
    NodupKeys [((1 : Nat), (5 : Int))]
    ∧ ((((1 : Nat), (5 : Int)) ∈ ((emptyPD Nat Int).iadd [(1, 5)])._dict) ↔
        ((1 : Nat), (5 : Int)) ∈ [((1 : Nat), (5 : Int))]) :=
  ⟨by decide, (C5_theorem [(1, 5)] (by decide)).1 1 5⟩

/-- Claim C6: for every well-formed container and every value v,
bisect_left(v) ≤ bisect_right(v); bisect_left returns the count of
Order-Index entries strictly below the minimal probe (v,); and the number
of entries whose value is exactly v equals bisect_right(v) − bisect_left(v),
the right probe using the always-greatest sentinel key to land past all
entries with value v. -/
theorem C6_theorem {K V : Type} [LinearOrder K] [LinearOrder V]
    (pd : PriorityDict K V) (v : V) (h : pd.Inv) :
    pd.bisect_left v ≤ pd.bisect_right v
    ∧ pd.bisect_left v = pd._list.countP (fun e => ltProbe1 e v)
    ∧ pd.bisect_right v - pd.bisect_left v =
        pd._list.countP (fun e => decide (e.1 = v)) := by
  have hL : pd.bisect_left v = pd._list.countP (fun e => ltProbe1 e v) := by
    show slBisectLeft pd._list v = _
    unfold slBisectLeft
    rw [findIdx_neg_eq_length_takeWhile]
    have hmono : pd._list.Pairwise
        (fun a b => ltProbe1 b v = true → ltProbe1 a v = true) := by
      apply List.Pairwise.imp ?_ (sorted_fst_pairwise h.sorted)
      intro a b hab hb
      simp only [ltProbe1, decide_eq_true_eq] at *
      exact lt_of_le_of_lt hab hb
    exact length_takeWhile_eq_countP hmono
  have hR : pd.bisect_right v = pd._list.countP (fun e => leProbeBig e v) := by
    show slBisectRight pd._list v = _
    unfold slBisectRight
    rw [findIdx_neg_eq_length_takeWhile]
    have hmono : pd._list.Pairwise
        (fun a b => leProbeBig b v = true → leProbeBig a v = true) := by
      apply List.Pairwise.imp ?_ (sorted_fst_pairwise h.sorted)
      intro a b hab hb
      simp only [leProbeBig, decide_eq_true_eq] at *
      exact le_trans hab hb
    exact length_takeWhile_eq_countP hmono
  have hsplit := countP_le_split v pd._list
  refine ⟨?_, hL, ?_⟩
  · omega
  · omega

theorem C6_witness :
    pdAB.bisect_left 2 ≤ pdAB.bisect_right 2
    ∧ pdAB.bisect_left 2 = pdAB._list.countP (fun e => ltProbe1 e 2)
    ∧ pdAB.bisect_right 2 - pdAB.bisect_left 2 =
        pdAB._list.countP (fun e => decide (e.1 = 2)) :=
  C6_theorem pdAB 2 ⟨by decide, by decide, by decide⟩

/-- Claim C7: for every well-formed container and threshold t, prune deletes
exactly the entries with value ≤ t from both indices (via the contiguous
Order-Index prefix [0, bisect_right(t))), so after one call no entry with
value ≤ t remains in either index, and pruning twice in a row yields the
same container as pruning once. -/
theorem C7_theorem {K V : Type} [LinearOrder K] [LinearOrder V]
    (pd : PriorityDict K V) (t : V) (h : pd.Inv) :
    (∀ k v, (((k, v) ∈ (pd.clean t)._dict) ↔ ((k, v) ∈ pd._dict ∧ t < v)))
    ∧ (∀ v k, (((v, k) ∈ (pd.clean t)._list) ↔ ((v, k) ∈ pd._list ∧ t < v)))
    ∧ (pd.clean t).clean t = pd.clean t :=
  ⟨fun k v => clean_dict_mem h t k v, fun v k => clean_list_mem h t v k,
    clean_idem pd t⟩

theorem C7_witness :
    ((((1 : Nat), (2 : Int)) ∈ (pdAB.clean 2)._dict) ↔
      (((1 : Nat), (2 : Int)) ∈ pdAB._dict ∧ (2 : Int) < 2))
    ∧ (pdAB.clean 2).clean 2 = pdAB.clean 2 :=
  ⟨(C7_theorem pdAB 2 ⟨by decide, by decide, by decide⟩).1 1 2,
   (C7_theorem pdAB 2 ⟨by decide, by decide, by decide⟩).2.2⟩

/-- Claim C8: applying the copy-producing Sum of A and B and then the
copy-producing Difference of the result and B restores A's original values:
over an exact arithmetic value type, every key of A holds its original
A-value in Difference(Sum(A, B), B). -/
theorem C8_theorem {K V : Type} [LinearOrder K] [LinearOrder V] [AddGroup V]
    (A : PriorityDict K V) (B : List (K × V)) (k : K) (v : V)
    (hA : NodupKeys A._dict) (hB : NodupKeys B) (hkv : (k, v) ∈ A._dict) :
    dget? ((A.addCopy B).subCopy B)._dict k = some v := by
  have hAv : dget? A._dict k = some v := dget?_mem hA hkv
  have hadd : dget? (A.addCopy B)._dict k =
      match dget? B k, dget? A._dict k with
      | some b, some a => some (a + b)
      | some b, none => some b
      | none, o => o := by
    show dget? (B.foldl addStep (dictOfList A._dict)) k = _
    rw [dictOfList_eq_self hA]
    exact dget?_foldl_addStep hB
  have hnodupAdd : NodupKeys (A.addCopy B)._dict :=
    nodupKeys_foldl nodupKeys_addStep _ _ (nodupKeys_dictOfList _)
  have hsub : dget? ((A.addCopy B).subCopy B)._dict k =
      match dget? B k, dget? (A.addCopy B)._dict k with
      | some b, some a => some (a - b)
      | _, o => o := by
    show dget? (B.foldl subStep (dictOfList (A.addCopy B)._dict)) k = _
    rw [dictOfList_eq_self hnodupAdd]
    exact dget?_foldl_subStep hB
  rw [hsub, hadd, hAv]
  cases hb : dget? B k with
  | some b => simp [add_sub_cancel_right]
  | none => rfl

theorem C8_witness :
    NodupKeys pdA1._dict ∧ NodupKeys listB ∧ ((1 : Nat), (1 : Int)) ∈ pdA1._dict
    ∧ dget? ((pdA1.addCopy listB).subCopy listB)._dict 1 = some 1 :=
  ⟨by decide, by decide, by decide,
    C8_theorem pdA1 listB 1 1 (by decide) (by decide) (by decide)⟩

/-- Claim C9 (code evaluation at the failing input): on the Value View of
{1 ↦ 2, 2 ↦ 3}, `index(2)` does not return the position 0 of the first
occurrence — it raises `AttributeError`, because `ValuesView.__init__`
assigns only `_list` and `_view` and never the `_dict` attribute that
`index` reads in its boundary check; `count(2)`, by contrast, returns
bisect_right − bisect_left = 1 exactly as the claim describes. -/
theorem C9_theorem :
    (ValuesView.ofPD pdAB).index 2 = .error .attributeError
    ∧ (ValuesView.ofPD pdAB).count 2 = 1 :=
  ⟨rfl, rfl⟩

/-- Claim C10: `copy` returns a container whose `_dict`, `_list` and `iloc`
attributes reference the very same objects as the original's, so a
subsequent `__setitem__` performed through the returned container is
observed through the original container as well. -/
theorem C10_theorem {K V : Type} [LinearOrder K] [LinearOrder V]
    (h : Heap K V) (o : PDObj) (k : K) (v : V) :
    ((copyPD h o).2.dictRef = o.dictRef ∧ (copyPD h o).2.listRef = o.listRef
      ∧ (copyPD h o).2.ilocRef = o.ilocRef)
    ∧ (o.dictRef < h.dicts.length →
        getitemH (setitemH (copyPD h o).1 (copyPD h o).2 k v) o k = some v) := by
  refine ⟨⟨rfl, rfl, rfl⟩, ?_⟩
  intro hlt
  have hlen : ((copyPD h o).2).dictRef < ((copyPD h o).1).dicts.length := by
    show o.dictRef < (h.dicts ++ [[]]).length
    rw [List.length_append]
    omega
  exact getitemH_setitemH_self (copyPD h o).1 (copyPD h o).2 k v hlen

theorem C10_witness :
    oW.dictRef < hW.dicts.length
    ∧ getitemH (setitemH (copyPD hW oW).1 (copyPD hW oW).2 9 (9 : Int)) oW 9 = some 9 :=
  ⟨by decide, (C10_theorem hW oW 9 9).2 (by decide)⟩
